import Mathlib

/-!
# Verification of the Math::Prime::Util::GMP core against its specification

Shallow embedding of the primality-testing and ECPP routines of the
repository (gmp_main.c ≈ `src/unnamed/part_000`, `src/ecpp.c`, `src/XS.xs`)
as executable Lean definitions, followed by theorems settling the frozen
claims C1–C10.

Modelling conventions:
* GMP big integers (`mpz_t`) are `ℕ` (they are non-negative at every
  embedded call site) or `ℤ` where the C code manipulates signed values.
* `mpz_mod` always produces a non-negative residue, which matches `Int.emod`
  (the `%` of `ℤ`) for a positive modulus, and `%` on `ℕ`.
* C loops whose bound is data-dependent are embedded with an explicit fuel
  argument; exhausted fuel models non-termination of the C loop and is
  returned as `Option.none` (or a designated junk value when the calling
  context makes exhaustion unreachable, as noted at each definition).
* `croak` (fatal abort) is modelled as `Option.none` as well.
-/

/-! ## Bit length: `mpz_sizeinbase(n, 2)` -/

/-- Fuel-driven binary length: number of binary digits of `n`
(0 for `n = 0`).  Fuel `n` is always sufficient. -/
def bitlenAux : ℕ → ℕ → ℕ
  | 0, _ => 0
  | fuel + 1, n => if n = 0 then 0 else bitlenAux fuel (n / 2) + 1

/-- Binary length of `n`: `⌊log₂ n⌋ + 1` for `n ≥ 1`, and `0` for `n = 0`. -/
def bitlen (n : ℕ) : ℕ := bitlenAux n n

/-- Model of `mpz_sizeinbase(n, 2)`: the binary length, except that GMP returns 1
for `n = 0`. -/
def sizeInBase2 (n : ℕ) : ℕ := if n = 0 then 1 else bitlen n

theorem bitlenAux_le_iff (k : ℕ) :
    ∀ fuel n, n ≤ fuel → (bitlenAux fuel n ≤ k ↔ n < 2 ^ k) := by
  induction k with
  | zero =>
    intro fuel n hn
    cases fuel with
    | zero =>
      interval_cases n
      simp [bitlenAux]
    | succ f =>
      simp only [bitlenAux, pow_zero, Nat.lt_one_iff]
      by_cases h : n = 0 <;> simp [h]
  | succ k ih =>
    intro fuel n hn
    cases fuel with
    | zero =>
      interval_cases n
      simp [bitlenAux, Nat.pos_pow_of_pos]
    | succ f =>
      simp only [bitlenAux]
      by_cases h : n = 0
      · simp [h, Nat.pos_pow_of_pos]
      · have hdiv : n / 2 ≤ f := by
          have := Nat.div_le_self n 2
          have hlt : n / 2 < n := Nat.div_lt_self (Nat.pos_of_ne_zero h) one_lt_two
          omega
        simp only [h, if_false, Nat.add_le_add_iff_right, ih f (n / 2) hdiv]
        rw [pow_succ]
        omega

theorem bitlen_le_iff (n k : ℕ) : bitlen n ≤ k ↔ n < 2 ^ k :=
  bitlenAux_le_iff k n n le_rfl

/-! ## Prime iterator (model of `prime_iterator_next`) and trial factoring -/

/-- Primality by exhaustive trial division over `[2, k)`; a computable,
kernel-friendly model of the iterator's primality notion. -/
def isPrimeB (k : ℕ) : Bool :=
  2 ≤ k && (List.range (k - 2)).all fun d => k % (d + 2) ≠ 0

/-- Upward search for the next prime, with fuel. -/
def nextPrimeAux : ℕ → ℕ → ℕ
  | 0, c => c
  | fuel + 1, c => if isPrimeB c then c else nextPrimeAux fuel (c + 1)

/-- Model of `prime_iterator_next`: smallest prime strictly greater than `p`
(fuel `p + 2` suffices by Bertrand's postulate). -/
def nextPrime (p : ℕ) : ℕ := nextPrimeAux (p + 2) (p + 1)

/-- Inner loop of `_GMP_trial_factor(n, from_n, to_n)`: walk primes `f = 2, 3, …`
while `f ≤ to`; stop early when `small` and `n < f²`; return the first
prime divisor found, else 0. -/
def trialFactorLoop (n toN : ℕ) (small : Bool) : ℕ → ℕ → ℕ
  | 0, _ => 0
  | fuel + 1, f =>
    if toN < f then 0
    else if small ∧ n < f * f then 0
    else if n % f = 0 then f
    else trialFactorLoop n toN small fuel (nextPrime f)

/-- Embedding of `_GMP_trial_factor(n, from_n, to_n)` from gmp_main: returns a factor of
`n` in the primes up to `to_n` (1 for `n ≤ 1`), or 0.  The C code croaks
when `from_n > to_n`; that branch is modelled as 0 and is unreachable at the
embedded call site (`from_n = 2`, `to_n = 997`). -/
def trialFactor (n fromN toN : ℕ) : ℕ :=
  if n < 4 then (if n ≤ 1 then 1 else 0)
  else if fromN ≤ 2 ∧ n % 2 = 0 then 2
  else if toN < fromN then 0
  else trialFactorLoop n toN (decide (n < toN * toN)) (toN + 1) 2

/-! ## The `_bgcd` primorial -/

/-- Embedding of `_GMP_pn_primorial`: product of the first `k` primes, iterating the
prime iterator from `p = 2`. -/
def pnPrimorialAux : ℕ → ℕ → ℕ → ℕ
  | 0, _, acc => acc
  | k + 1, p, acc => pnPrimorialAux k (nextPrime p) (acc * p)

/-- The `_bgcd` value set by `_GMP_init`: the primorial of the first 168 primes
(all primes below 1009). -/
def bgcd : ℕ := pnPrimorialAux 168 2 1

/-! ## Miller–Rabin (`_GMP_miller_rabin`) -/

/-- Model of `mpz_scan1(n, 0)`: the 2-adic valuation of `n` (index of the lowest set
bit), with fuel; fuel `n` suffices for `n ≥ 1`. -/
def scan1 : ℕ → ℕ → ℕ
  | 0, _ => 0
  | fuel + 1, n => if n = 0 ∨ n % 2 = 1 then 0 else scan1 fuel (n / 2) + 1

/-- The squaring loop of `_GMP_miller_rabin` (`for r = 1; r < s; r++`),
run for the given number of remaining iterations. -/
def mrLoop (n nm1 : ℕ) : ℕ → ℕ → Bool
  | 0, _ => false
  | k + 1, x =>
    let x' := x ^ 2 % n
    if x' = 1 then false
    else if x' = nm1 then true
    else mrLoop n nm1 k x'

/-- Body of `_GMP_miller_rabin` after the small-`n` checks and the base
validity croak, for odd `n > 2` and base `a ≥ 2`. -/
def millerRabinCore (n a : ℕ) : Bool :=
  let nm1 := n - 1
  let x := if n ≤ a then a % n else a
  if x ≤ 1 ∨ nm1 ≤ x then true
  else
    let s := scan1 nm1 nm1
    let d := nm1 / 2 ^ s
    let x1 := x ^ d % n
    if x1 = 1 ∨ x1 = nm1 then true
    else mrLoop n nm1 (s - 1) x1

/-- Embedding of `_GMP_miller_rabin(n, a)`: 2 is prime, `n < 2` and even `n` are
composite; a base `a ≤ 1` croaks (modelled as `none`); otherwise the strong
probable-prime test to base `a` runs. -/
def millerRabin (n a : ℕ) : Option Bool :=
  if n = 2 then some true
  else if n < 2 then some false
  else if n % 2 = 0 then some false
  else if a ≤ 1 then none
  else some (millerRabinCore n a)

/-! ## Jacobi symbol (model of `mpz_jacobi`) -/

/-- One step of the classical Jacobi-symbol recursion on `(a, n)` with `n`
odd and positive, with fuel.  `J(a+n, n) = J(a, n)`, `J(2, n)` by `n mod 8`,
quadratic reciprocity for odd arguments. -/
def jacStep : ℕ → ℕ → ℕ → ℤ
  | 0, _, _ => 0
  | fuel + 1, a, n =>
    let a := a % n
    if a = 0 then (if n = 1 then 1 else 0)
    else if a % 2 = 0 then
      (if n % 8 = 3 ∨ n % 8 = 5 then -1 else 1) * jacStep fuel (a / 2) n
    else if a = 1 then 1
    else
      (if a % 4 = 3 ∧ n % 4 = 3 then -1 else 1) * jacStep fuel (n % a) a

/-- Model of `mpz_jacobi(a, n)`: Jacobi symbol for odd positive `n` (the only GMP
contract; other `n` get a don't-care value).  Negative `a` is first reduced
into `[0, n)`, using periodicity of the symbol in its numerator. -/
def jacobi (a : ℤ) (n : ℕ) : ℤ :=
  jacStep (2 * n + a.natAbs + 16) (a % (n : ℤ)).toNat n

/-! ## Strong / standard Lucas–Selfridge test (`_GMP_is_lucas_pseudoprime`) -/

/-- Model of `mpz_perfect_square_p`, implemented by exhaustive search (kernel friendly). -/
def isSquareB (n : ℕ) : Bool := (List.range (n + 1)).any fun r => r * r = n

/-- The Selfridge parameter search: `D = 5, -7, 9, -11, …` until
`jacobi(D, n) = -1`; a non-trivial `gcd(n, |D|)` proves `n` composite
(`some none`); exhausted fuel (the C loop running forever) is `none`. -/
def selfridgeLoop (n : ℕ) : ℕ → ℕ → ℤ → Option (Option ℤ)
  | 0, _, _ => none
  | fuel + 1, dui, sign =>
    let g := Nat.gcd n dui
    if 1 < g ∧ n ≠ g then some none
    else if jacobi (sign * dui) n = -1 then some (some (sign * dui))
    else selfridgeLoop n fuel (dui + 2) (-sign)

/-- The main Lucas-chain loop of `_GMP_is_lucas_pseudoprime`: starting from
`(U, V, Qk) = (1, P, Q)` with `P = 1`, process bits `b-2 … 0` of `d`
(`b` = binary length of `d`), doubling each step and adding when the bit is
set, exactly as the C loop (including its deferred reductions). -/
def lucasLoop (n q bigD : ℤ) (d : ℕ) : ℕ → ℤ × ℤ × ℤ → ℤ × ℤ × ℤ
  | 0, st => st
  | 1, st => st
  | b + 2, (u, v, qk) =>
    let u1 := u * v % n
    let v1 := (v * v - 2 * qk) % n
    let qk1 := qk * qk
    let b' := b + 1
    let st' :=
      if d.testBit (b' - 1) then
        let t2 := u1 * bigD
        let ta := u1 + v1
        let ta := if ta % 2 ≠ 0 then ta + n else ta
        let u' := ta / 2
        let tb := t2 + v1
        let tb := if tb % 2 ≠ 0 then tb + n else tb
        let v' := tb / 2
        (u', v', qk1 * q)
      else (u1, v1, qk1)
    lucasLoop n q bigD d b' (st'.1, st'.2.1, st'.2.2 % n)

/-- The trailing squaring loop of the strong Lucas test (`while (s--)`),
with the C's skip of the final `Qk` update. -/
def lucasStrongLoop (n : ℤ) : ℕ → ℤ → ℤ → Bool
  | 0, _, _ => false
  | s + 1, v, qk =>
    let v' := (v * v - 2 * qk) % n
    if v' = 0 then true
    else lucasStrongLoop n s v' (if s ≠ 0 then qk * qk % n else qk)

/-- Embedding of `_GMP_is_lucas_pseudoprime(n, do_strong)`: 2 is prime; `n < 2`, even
`n`, and perfect squares are composite; then the Selfridge parameters are
found (`fuel` bounds that search) and the Lucas sequence `U, V` is computed
at `d = (n+1)/2^s` (strong) or `n+1` (standard).  The unreachable
`incorrect DPQ` croak is `none`. -/
def isLucasPseudoprime (fuel n : ℕ) (strong : Bool) : Option Bool :=
  if n = 2 then some true
  else if n < 2 then some false
  else if n % 2 = 0 then some false
  else if isSquareB n then some false
  else
    match selfridgeLoop n fuel 5 1 with
    | none => none
    | some none => some false
    | some (some bigD) =>
      let q : ℤ := (1 - bigD) / 4
      if bigD ≠ 1 * 1 - 4 * q then none
      else
        let s := scan1 (n + 1) (n + 1)
        let d := if strong then (n + 1) / 2 ^ s else n + 1
        let b := bitlen d
        let uvq := lucasLoop (n : ℤ) q bigD d b (1, 1, q)
        let u := uvq.1 % (n : ℤ)
        let v := uvq.2.1 % (n : ℤ)
        if strong = false then some (decide (u = 0))
        else if u = 0 ∨ v = 0 then some true
        else some (lucasStrongLoop (n : ℤ) s v uvq.2.2)

/-- The function `_GMP_is_lucas_pseudoprime` with the fuel this development uses for the
Selfridge search (any fuel large enough to let the C loop finish gives the
same answer; `n` is never enough only when the C loop diverges). -/
def isLucasPP (n : ℕ) (strong : Bool) : Option Bool :=
  isLucasPseudoprime n n strong

/-! ## `_GMP_is_prob_prime` (BPSW) -/

/-- Embedding of `_GMP_is_prob_prime(n)`: 0 composite, 2 prime, 1 probable prime.
Small `n` by trial division; divisibility by 2/3/5; a gcd with the
primorial `_bgcd`; then Miller–Rabin base 2 and the strong Lucas–Selfridge
test; deterministic (returns 2) when `n` has at most 64 bits.  `none`
models the (unreachable) croak paths and Selfridge-search divergence. -/
def isProbPrime (n : ℕ) : Option ℕ :=
  if n ≤ 1008 then some (if trialFactor n 2 997 ≠ 0 then 0 else 2)
  else if n % 2 = 0 ∨ n % 3 = 0 ∨ n % 5 = 0 then some 0
  else if Nat.gcd n bgcd ≠ 1 then some 0
  else if n < 1009 * 1009 then some 2
  else if millerRabinCore n 2 = false then some 0
  else
    match isLucasPP n true with
    | none => none
    | some false => some 0
    | some true => some (if sizeInBase2 n ≤ 64 then 2 else 1)

/-! ## Claim C1: determinism of `is_prob_prime` up to 2⁶⁴ -/

/-- C1.  For every `n ≤ 2⁶⁴`, whenever `_GMP_is_prob_prime(n)` returns a
value it is 0 (composite) or 2 (prime), never 1 (probable prime): the final
branch returns 1 only when `n` has more than 64 bits, and the only `n ≤ 2⁶⁴`
with more than 64 bits is `2⁶⁴` itself, which is even and so is reported
composite much earlier. -/
theorem isProbPrime_below_2_64 (n r : ℕ) (hn : n ≤ 2 ^ 64)
    (h : isProbPrime n = some r) : r = 0 ∨ r = 2 := by
  unfold isProbPrime at h
  by_cases h1 : n ≤ 1008
  · rw [if_pos h1] at h
    by_cases h2 : trialFactor n 2 997 ≠ 0
    · rw [if_pos h2] at h; injection h with h; omega
    · rw [if_neg h2] at h; injection h with h; omega
  · rw [if_neg h1] at h
    by_cases h2 : n % 2 = 0 ∨ n % 3 = 0 ∨ n % 5 = 0
    · rw [if_pos h2] at h; injection h with h; omega
    · rw [if_neg h2] at h
      by_cases h3 : Nat.gcd n bgcd ≠ 1
      · rw [if_pos h3] at h; injection h with h; omega
      · rw [if_neg h3] at h
        by_cases h4 : n < 1009 * 1009
        · rw [if_pos h4] at h; injection h with h; omega
        · rw [if_neg h4] at h
          by_cases h5 : millerRabinCore n 2 = false
          · rw [if_pos h5] at h; injection h with h; omega
          · rw [if_neg h5] at h
            have hodd : n % 2 = 1 := by omega
            have hlt : n < 2 ^ 64 := by
              rcases Nat.lt_or_ge n (2 ^ 64) with h' | h'
              · exact h'
              · exfalso
                have he : n = 2 ^ 64 := le_antisymm hn h'
                rw [he] at hodd
                norm_num at hodd
            have hb : sizeInBase2 n ≤ 64 := by
              unfold sizeInBase2
              rw [if_neg (by omega)]
              exact (bitlen_le_iff n 64).mpr hlt
            cases hl : isLucasPP n true with
            | none => rw [hl] at h; cases h
            | some b =>
              rw [hl] at h
              cases b with
              | false => injection h with h; omega
              | true =>
                rw [if_pos hb] at h
                injection h with h
                omega

theorem isProbPrime_below_2_64_witness :
    (7 : ℕ) ≤ 2 ^ 64 ∧ isProbPrime 7 = some 2 ∧ (2 = 0 ∨ 2 = 2) :=
  ⟨by norm_num, by decide, isProbPrime_below_2_64 7 2 (by norm_num) (by decide)⟩

/-! ## Claim C9: early rejections of the strong Lucas–Selfridge test -/

theorem isSquareB_of_isSquare (n : ℕ) (h : IsSquare n) : isSquareB n = true := by
  obtain ⟨r, hr⟩ := h
  have hrn : r ≤ n := by nlinarith [hr.ge]
  unfold isSquareB
  rw [List.any_eq_true]
  exact ⟨r, List.mem_range.mpr (by omega), by simp [hr]⟩

/-- C9.  The strong Lucas–Selfridge test `_GMP_is_lucas_pseudoprime(n, 1)`
reports composite for every perfect square `n`, every even `n > 2`, and
every `n < 2`, for any fuel given to the Selfridge parameter search: all
three cases are rejected before that search starts. -/
theorem lucas_rejects_squares_evens_small (fuel n : ℕ)
    (h : IsSquare n ∨ (2 < n ∧ n % 2 = 0) ∨ n < 2) :
    isLucasPseudoprime fuel n true = some false := by
  have hn2 : n ≠ 2 := by
    rintro rfl
    rcases h with hsq | h | h
    · obtain ⟨r, hr⟩ := hsq
      have : r ≤ 2 := by nlinarith [hr.ge]
      interval_cases r <;> omega
    · omega
    · omega
  unfold isLucasPseudoprime
  rw [if_neg hn2]
  rcases h with hsq | ⟨hgt, heven⟩ | hlt
  · by_cases hl : n < 2
    · rw [if_pos hl]
    · rw [if_neg hl]
      by_cases he : n % 2 = 0
      · rw [if_pos he]
      · rw [if_neg he, if_pos (isSquareB_of_isSquare n hsq)]
  · rw [if_neg (by omega), if_pos heven]
  · rw [if_pos hlt]

theorem lucas_rejects_squares_evens_small_witness :
    (IsSquare 9 ∨ (2 < 9 ∧ 9 % 2 = 0) ∨ 9 < 2) ∧
      isLucasPseudoprime 9 9 true = some false :=
  ⟨Or.inl ⟨3, by norm_num⟩,
   lucas_rejects_squares_evens_small 9 9 (Or.inl ⟨3, by norm_num⟩)⟩

/-! ## Claim C10: Miller–Rabin on trivial residues of the base -/

/-- C10.  For odd `n > 2` and any base `a ≥ 2` whose residue mod `n` lies in
`{0, 1, n-1}`, `_GMP_miller_rabin(n, a)` answers "probable prime": the code
reduces the base, and any reduced base `≤ 1` or `≥ n-1` is accepted before
any powering happens — regardless of whether `n` is prime. -/
theorem millerRabin_trivial_residue (n a : ℕ) (hodd : n % 2 = 1) (hn : 2 < n)
    (ha : 2 ≤ a) (hmod : a % n = 0 ∨ a % n = 1 ∨ a % n = n - 1) :
    millerRabin n a = some true := by
  unfold millerRabin
  rw [if_neg (by omega), if_neg (by omega), if_neg (by omega),
    if_neg (by omega)]
  unfold millerRabinCore
  by_cases hge : n ≤ a
  · simp only [if_pos hge]
    rw [if_pos (by omega)]
  · have hax : a % n = a := Nat.mod_eq_of_lt (by omega)
    simp only [if_neg hge]
    rw [if_pos (by omega)]

theorem millerRabin_trivial_residue_witness :
    9 % 2 = 1 ∧ 2 < 9 ∧ 2 ≤ 8 ∧ (8 % 9 = 0 ∨ 8 % 9 = 1 ∨ 8 % 9 = 9 - 1) ∧
      millerRabin 9 8 = some true :=
  ⟨by decide, by decide, by decide, by decide,
   millerRabin_trivial_residue 9 8 (by decide) (by decide) (by decide)
     (by decide)⟩

/-! ## Integer fourth root (`mpz_root(·, 4)`) and the Atkin–Morain bound -/

/-- Upward search for the floor fourth root: raise `r` while
`(r+1)⁴ ≤ n`. -/
def root4Aux (n : ℕ) : ℕ → ℕ → ℕ
  | 0, r => r
  | fuel + 1, r =>
    if (r + 1) * (r + 1) * (r + 1) * (r + 1) ≤ n then root4Aux n fuel (r + 1)
    else r

/-- Model of `mpz_root(n, 4)`: the integer (floor) fourth root of `n`. -/
def mpzRoot4 (n : ℕ) : ℕ := root4Aux n n 0

theorem root4Aux_spec (n : ℕ) : ∀ fuel r, r * r * r * r ≤ n → n ≤ r + fuel →
    root4Aux n fuel r * root4Aux n fuel r * root4Aux n fuel r *
        root4Aux n fuel r ≤ n ∧
      n < (root4Aux n fuel r + 1) * (root4Aux n fuel r + 1) *
        (root4Aux n fuel r + 1) * (root4Aux n fuel r + 1) := by
  intro fuel
  induction fuel with
  | zero =>
    intro r hr hn
    refine ⟨hr, ?_⟩
    simp only [root4Aux]
    nlinarith
  | succ f ih =>
    intro r hr hn
    by_cases hstep : (r + 1) * (r + 1) * (r + 1) * (r + 1) ≤ n
    · have := ih (r + 1) hstep (by omega)
      simpa only [root4Aux, if_pos hstep] using this
    · simp only [root4Aux, if_neg hstep]
      exact ⟨hr, by omega⟩

/-- The value `mpzRoot4 n` really is `⌊n^{1/4}⌋`. -/
theorem mpzRoot4_spec (n : ℕ) :
    mpzRoot4 n * mpzRoot4 n * mpzRoot4 n * mpzRoot4 n ≤ n ∧
      n < (mpzRoot4 n + 1) * (mpzRoot4 n + 1) * (mpzRoot4 n + 1) *
        (mpzRoot4 n + 1) :=
  root4Aux_spec n n 0 (by omega) (by omega)

/-- The per-level minimum-factor bound of `ecpp_down` (ecpp.c lines
577–581): `minfactor = (⌊Ni^{1/4}⌋ + 1)²`, computed once from the level's
candidate before the stage loop starts (Atkin–Morain, 1992, §6.4). -/
def ecppMinfactor (ni : ℕ) : ℕ := (mpzRoot4 ni + 1) * (mpzRoot4 ni + 1)

/-! ## `check_for_factor2` (ecpp.c): the ECPP factoring stage

The p−1 and ECM factoring back-ends live in other translation units; they
are abstracted as oracles `p1 n B1 B2` and `ecm n B1 ncurves` returning an
alleged factor or nothing.  All claims proved below hold for every oracle
behaviour. -/

/-- The trial-division preamble of `check_for_factor2`: walk primes
`tf = 2, 3, …` below 3000, stopping once `n < tf²`, dividing out each
`tf` completely. -/
def divideOut : ℕ → ℕ → ℕ → ℕ
  | 0, n, _ => n
  | fuel + 1, n, tf => if n % tf = 0 then divideOut fuel (n / tf) tf else n

def trialDivide2999Loop : ℕ → ℕ → ℕ → ℕ
  | 0, _, n => n
  | fuel + 1, tf, n =>
    if 3000 ≤ tf then n
    else if n < tf * tf then n
    else trialDivide2999Loop fuel (nextPrime tf) (divideOut n n tf)

def trialDivide2999 (n : ℕ) : ℕ := trialDivide2999Loop 3000 2 n

/-- Return value of `check_for_factor2`: `found f` is C's `return 1` with
the factor in `f`; `none_` is `return 0`; `reduced f` is `return -1` with
the reduced composite in `f`.  Each carries the saved-factors list as left
by the call. -/
inductive CFFRes where
  | found (f : ℕ) (sfacs : List ℕ)
  | none_ (sfacs : List ℕ)
  | reduced (f : ℕ) (sfacs : List ℕ)
  deriving DecidableEq, Repr

/-- The scan of previously saved factors (`while (!success && sfaci <
*nsfacs)`), starting at index `sfaci`; on a hit the index advances past the
hit (C increments `sfaci` after setting `success`). -/
def scanSfacs (n : ℕ) : List ℕ → ℕ → Option (ℕ × ℕ)
  | [], _ => none
  | f :: rest, i => if n % f = 0 then some (f, i + 1) else scanSfacs n rest (i + 1)

/-- The `stage > 1` ladder of `check_for_factor2` (ecpp.c lines 124–137). -/
def stageTry (p1 ecm : ℕ → ℕ → ℕ → Option ℕ) (stage n b1 : ℕ) : Option ℕ :=
  if stage = 2 then
    match p1 n (5 * b1) (5 * 20 * b1) with
    | some f => some f
    | none => ecm n 250 4
  else if stage = 3 then
    match p1 n (25 * b1) (25 * 20 * b1) with
    | some f => some f
    | none => ecm n 500 4
  else if stage = 4 then
    match p1 n (200 * b1) (200 * 20 * b1) with
    | some f => some f
    | none => ecm n 1000 10
  else if 5 ≤ stage then ecm n (8000 * (stage - 4) * (stage - 4) * (stage - 4)) (5 + stage)
  else none

/-- One iteration's factor search, in the C order: p−1 with
`B1 = 300 + 3·bits(n)` and `B2 = 10·B1` (stage ≥ 1), then the saved-factor
scan, then the `stage > 1` ladder.  Returns the factor and the index the
saved-factor cursor is left at. -/
def cff2Hit (p1 ecm : ℕ → ℕ → ℕ → Option ℕ) (stage n sfaci : ℕ)
    (sfacs : List ℕ) : Option (ℕ × ℕ) :=
  let b1 := 300 + 3 * sizeInBase2 n
  match (if 1 ≤ stage then p1 n b1 (10 * b1) else none) with
  | some f => some (f, sfaci)
  | none =>
    match scanSfacs n (List.drop sfaci sfacs) sfaci with
    | some fi => some fi
    | none =>
      match (if 1 < stage then stageTry p1 ecm stage n b1 else none) with
      | some f => some (f, sfacs.length)
      | none => none

/-- Recording of a found factor into the saved-factors list
(`if (stage > 1 && *nsfacs < MAX_SFACS) …`, with `MAX_SFACS = 1000`). -/
def cff2Record (stage : ℕ) (sfacs : List ℕ) (f : ℕ) : List ℕ :=
  if 1 < stage ∧ sfacs.length < 1000 then sfacs ++ [f] else sfacs

/-- The `while (success)` loop of `check_for_factor2`.  One iteration:
bail out at `n ≤ fmin`; accept a probable-prime `n` when above the bound;
otherwise search for a factor (`cff2Hit`); a found factor equal
to 1 or `n` croaks (`none`), else it is recorded (stage > 1, cap 1000),
accepted if `> fmin` and probably prime, or divided out and the loop
repeats. -/
def cff2Loop (p1 ecm : ℕ → ℕ → ℕ → Option ℕ) (stage fmin : ℕ) :
    ℕ → ℕ → ℕ → List ℕ → Option CFFRes
  | 0, _, _, _ => none
  | fuel + 1, n, sfaci, sfacs =>
    if n ≤ fmin then some (.none_ sfacs)
    else
      match isProbPrime n with
      | none => none
      | some v =>
        if v ≠ 0 then some (if fmin < n then .found n sfacs else .none_ sfacs)
        else
          match cff2Hit p1 ecm stage n sfaci sfacs with
          | none => some (.reduced n sfacs)
          | some (f, i') =>
            if f = 1 ∨ f = n then none
            else
              if fmin < f then
                match isProbPrime f with
                | none => none
                | some w =>
                  if w ≠ 0 then some (.found f (cff2Record stage sfacs f))
                  else cff2Loop p1 ecm stage fmin fuel (n / f) i' (cff2Record stage sfacs f)
              else cff2Loop p1 ecm stage fmin fuel (n / f) i' (cff2Record stage sfacs f)

/-- Embedding of `check_for_factor2(f, inputn, fmin, n, stage, sfacs, nsfacs)`: reject
when `inputn ≤ fmin`, pre-strip primes below 3000, then run the factoring
loop.  Fuel `n + 1` bounds the loop's iterations (each one divides `n` by a
factor ≥ 2 or returns). -/
def checkForFactor2 (p1 ecm : ℕ → ℕ → ℕ → Option ℕ)
    (inputn fmin stage : ℕ) (sfacs : List ℕ) : Option CFFRes :=
  if inputn ≤ fmin then some (.none_ sfacs)
  else
    let n := trialDivide2999 inputn
    cff2Loop p1 ecm stage fmin (n + 1) n 0 sfacs

theorem cff2Loop_found (p1 ecm : ℕ → ℕ → ℕ → Option ℕ) (stage fmin : ℕ) :
    ∀ fuel n sfaci sfacs q s',
      cff2Loop p1 ecm stage fmin fuel n sfaci sfacs = some (CFFRes.found q s') →
      fmin < q ∧ ∃ v, isProbPrime q = some v ∧ v ≠ 0 := by
  intro fuel
  induction fuel with
  | zero =>
    intro n sfaci sfacs q s' h
    simp [cff2Loop] at h
  | succ fl ih =>
    intro n sfaci sfacs q s' h
    rw [cff2Loop] at h
    by_cases h1 : n ≤ fmin
    · rw [if_pos h1] at h
      exact absurd h (by simp)
    · rw [if_neg h1] at h
      cases hp : isProbPrime n with
      | none => rw [hp] at h; cases h
      | some v =>
        rw [hp] at h
        dsimp only at h
        by_cases hv : v ≠ 0
        · rw [if_pos hv] at h
          rw [if_pos (by omega : fmin < n)] at h
          injection h with h
          injection h with hq hs
          subst hq
          exact ⟨by omega, v, hp, hv⟩
        · rw [if_neg hv] at h
          cases hhit : cff2Hit p1 ecm stage n sfaci sfacs with
          | none =>
            rw [hhit] at h
            exact absurd h (by simp)
          | some fi =>
            obtain ⟨f, i'⟩ := fi
            rw [hhit] at h
            dsimp only at h
            by_cases hf : f = 1 ∨ f = n
            · rw [if_pos hf] at h; cases h
            · rw [if_neg hf] at h
              by_cases hff : fmin < f
              · rw [if_pos hff] at h
                cases hpf : isProbPrime f with
                | none => rw [hpf] at h; cases h
                | some w =>
                  rw [hpf] at h
                  dsimp only at h
                  by_cases hw : w ≠ 0
                  · rw [if_pos hw] at h
                    injection h with h
                    injection h with hq hs
                    subst hq
                    exact ⟨hff, w, hpf, hw⟩
                  · rw [if_neg hw] at h
                    exact ih _ _ _ _ _ h
              · rw [if_neg hff] at h
                exact ih _ _ _ _ _ h

/-! ## Claim C2: the Atkin–Morain bound on every factor reported FOUND -/

/-- C2.  With the per-level bound `fmin = ecppMinfactor N` that `ecpp_down`
computes once from the level's candidate `N` (the square of one plus the
integer fourth root of `N`, as `mpzRoot4_spec` certifies), every factor `q`
that `check_for_factor2` reports as FOUND (C return value 1) is strictly
larger than that bound and passes the probable-prime test — whatever the
p−1/ECM factoring oracles return. -/
theorem checkForFactor2_found_bound (p1 ecm : ℕ → ℕ → ℕ → Option ℕ)
    (bigN inputn stage : ℕ) (sfacs : List ℕ) (q : ℕ) (s' : List ℕ)
    (h : checkForFactor2 p1 ecm inputn (ecppMinfactor bigN) stage sfacs =
      some (CFFRes.found q s')) :
    ecppMinfactor bigN = (mpzRoot4 bigN + 1) * (mpzRoot4 bigN + 1) ∧
      mpzRoot4 bigN * mpzRoot4 bigN * mpzRoot4 bigN * mpzRoot4 bigN ≤ bigN ∧
      bigN < (mpzRoot4 bigN + 1) * (mpzRoot4 bigN + 1) * (mpzRoot4 bigN + 1) *
        (mpzRoot4 bigN + 1) ∧
      ecppMinfactor bigN < q ∧ ∃ v, isProbPrime q = some v ∧ v ≠ 0 := by
  unfold checkForFactor2 at h
  by_cases h0 : inputn ≤ ecppMinfactor bigN
  · rw [if_pos h0] at h
    exact absurd h (by simp)
  · rw [if_neg h0] at h
    have hmain := cff2Loop_found p1 ecm stage (ecppMinfactor bigN) _ _ _ _ q s' h
    exact ⟨rfl, (mpzRoot4_spec bigN).1, (mpzRoot4_spec bigN).2, hmain.1, hmain.2⟩

theorem checkForFactor2_found_bound_witness :
    ecppMinfactor 1 = (mpzRoot4 1 + 1) * (mpzRoot4 1 + 1) ∧
      mpzRoot4 1 * mpzRoot4 1 * mpzRoot4 1 * mpzRoot4 1 ≤ 1 ∧
      1 < (mpzRoot4 1 + 1) * (mpzRoot4 1 + 1) * (mpzRoot4 1 + 1) *
        (mpzRoot4 1 + 1) ∧
      ecppMinfactor 1 < 5 ∧ ∃ v, isProbPrime 5 = some v ∧ v ≠ 0 :=
  checkForFactor2_found_bound (fun _ _ _ => none) (fun _ _ _ => none) 1 5 1 [] 5
    [] (by decide)

theorem stageTry_ge5 (p1 ecm : ℕ → ℕ → ℕ → Option ℕ) (stage n b1 : ℕ)
    (h : 5 ≤ stage) :
    stageTry p1 ecm stage n b1 =
      ecm n (8000 * (stage - 4) * (stage - 4) * (stage - 4)) (5 + stage) := by
  unfold stageTry
  rw [if_neg (show ¬stage = 2 by omega), if_neg (show ¬stage = 3 by omega),
    if_neg (show ¬stage = 4 by omega), if_pos h]

theorem cff2Hit_stage_params (p1 p1' ecm ecm' : ℕ → ℕ → ℕ → Option ℕ)
    (stage : ℕ) (hstage : stage = 1 ∨ 5 ≤ stage)
    (hp1 : ∀ m, p1 m (300 + 3 * sizeInBase2 m) (10 * (300 + 3 * sizeInBase2 m)) =
      p1' m (300 + 3 * sizeInBase2 m) (10 * (300 + 3 * sizeInBase2 m)))
    (hecm : ∀ m, ecm m (8000 * (stage - 4) * (stage - 4) * (stage - 4)) (5 + stage) =
      ecm' m (8000 * (stage - 4) * (stage - 4) * (stage - 4)) (5 + stage))
    (n sfaci : ℕ) (sfacs : List ℕ) :
    cff2Hit p1 ecm stage n sfaci sfacs = cff2Hit p1' ecm' stage n sfaci sfacs := by
  have hs1 : 1 ≤ stage := by omega
  unfold cff2Hit
  dsimp only
  rw [if_pos hs1, if_pos hs1, hp1 n]
  rcases hstage with h | h
  · rw [if_neg (show ¬1 < stage by omega), if_neg (show ¬1 < stage by omega)]
  · rw [if_pos (show 1 < stage by omega), if_pos (show 1 < stage by omega),
      stageTry_ge5 p1 ecm stage n _ h, stageTry_ge5 p1' ecm' stage n _ h,
      hecm n]

theorem cff2Loop_stage_params (p1 p1' ecm ecm' : ℕ → ℕ → ℕ → Option ℕ)
    (stage fmin : ℕ) (hstage : stage = 1 ∨ 5 ≤ stage)
    (hp1 : ∀ m, p1 m (300 + 3 * sizeInBase2 m) (10 * (300 + 3 * sizeInBase2 m)) =
      p1' m (300 + 3 * sizeInBase2 m) (10 * (300 + 3 * sizeInBase2 m)))
    (hecm : ∀ m, ecm m (8000 * (stage - 4) * (stage - 4) * (stage - 4)) (5 + stage) =
      ecm' m (8000 * (stage - 4) * (stage - 4) * (stage - 4)) (5 + stage)) :
    ∀ fuel n sfaci sfacs,
      cff2Loop p1 ecm stage fmin fuel n sfaci sfacs =
        cff2Loop p1' ecm' stage fmin fuel n sfaci sfacs := by
  intro fuel
  induction fuel with
  | zero => intro n sfaci sfacs; rfl
  | succ fl ih =>
    intro n sfaci sfacs
    rw [cff2Loop, cff2Loop,
      cff2Hit_stage_params p1 p1' ecm ecm' stage hstage hp1 hecm n sfaci sfacs]
    by_cases h1 : n ≤ fmin
    · simp only [if_pos h1]
    · simp only [if_neg h1]
      cases isProbPrime n with
      | none => rfl
      | some v =>
        dsimp only
        by_cases hv : v ≠ 0
        · simp only [if_pos hv]
        · simp only [if_neg hv]
          cases cff2Hit p1' ecm' stage n sfaci sfacs with
          | none => rfl
          | some fi =>
            obtain ⟨f, i'⟩ := fi
            dsimp only
            by_cases hf : f = 1 ∨ f = n
            · simp only [if_pos hf]
            · simp only [if_neg hf]
              by_cases hff : fmin < f
              · simp only [if_pos hff]
                cases isProbPrime f with
                | none => rfl
                | some w =>
                  dsimp only
                  by_cases hw : w ≠ 0
                  · simp only [if_pos hw]
                  · simp only [if_neg hw]
                    exact ih _ _ _
              · simp only [if_neg hff]
                exact ih _ _ _

/-! ## Claim C8: the factoring budgets used by `check_for_factor2` -/

/-- C8.  At factoring stage 1 (and at every stage ≥ 5 likewise), the only
p−1 invocations `check_for_factor2` makes use `B1 = 300 + 3·bits(n)` with
stage-2 continuation bound `B2 = 10·B1`, and the only ECM invocations a
stage `k ≥ 5` makes use `B1 = 8000·(k−4)³` with `5 + k` curves: two runs
whose factoring oracles agree on exactly those budget points are
indistinguishable. -/
theorem checkForFactor2_stage_params (p1 p1' ecm ecm' : ℕ → ℕ → ℕ → Option ℕ)
    (stage : ℕ) (hstage : stage = 1 ∨ 5 ≤ stage)
    (hp1 : ∀ m, p1 m (300 + 3 * sizeInBase2 m) (10 * (300 + 3 * sizeInBase2 m)) =
      p1' m (300 + 3 * sizeInBase2 m) (10 * (300 + 3 * sizeInBase2 m)))
    (hecm : ∀ m, ecm m (8000 * (stage - 4) * (stage - 4) * (stage - 4)) (5 + stage) =
      ecm' m (8000 * (stage - 4) * (stage - 4) * (stage - 4)) (5 + stage))
    (inputn fmin : ℕ) (sfacs : List ℕ) :
    checkForFactor2 p1 ecm inputn fmin stage sfacs =
      checkForFactor2 p1' ecm' inputn fmin stage sfacs := by
  unfold checkForFactor2
  by_cases h0 : inputn ≤ fmin
  · simp only [if_pos h0]
  · simp only [if_neg h0]
    exact cff2Loop_stage_params p1 p1' ecm ecm' stage fmin hstage hp1 hecm
      (trialDivide2999 inputn + 1) (trialDivide2999 inputn) 0 sfacs

theorem checkForFactor2_stage_params_witness :
    ((6 : ℕ) = 1 ∨ 5 ≤ 6) ∧
      checkForFactor2 (fun _ _ _ => none) (fun _ _ _ => none) 5 0 6 [] =
        checkForFactor2
          (fun _ b1 b2 => if b2 = 10 * b1 then none else some 7)
          (fun _ _ c => if c = 5 + 6 then none else some 7) 5 0 6 [] :=
  ⟨Or.inr (by norm_num),
   checkForFactor2_stage_params (fun _ _ _ => none)
     (fun _ b1 b2 => if b2 = 10 * b1 then none else some 7)
     (fun _ _ _ => none) (fun _ _ c => if c = 5 + 6 then none else some 7) 6
     (Or.inr (by norm_num)) (fun _ => by simp) (fun _ => by simp) 5 0 []⟩

/-! ## Affine elliptic-curve arithmetic

`ec_affine_multiply` lives in a translation unit that is not part of the
given sources; it is modelled from the spec (§4.3): affine chord/tangent
formulas on `y² = x³ + ax + b` over `ℤ/N`, the point at infinity is the
sentinel `(0, 1)`, a slope denominator that is not invertible mod `N` is
reported as a factoring witness (`Except.error` with the gcd), and the
scalar multiple is a binary ladder propagating that failure.  A denominator
that is 0 mod `N` arising from adding a point to its inverse (or doubling a
2-torsion point) yields the point at infinity, as the success criterion
`q·P = 𝒪` of `ecpp_check_point` requires. -/

structure AffPoint where
  px : ℤ
  py : ℤ
  deriving DecidableEq, Repr

/-- The point at infinity: the sentinel `(0, 1)`. -/
def ecO : AffPoint := ⟨0, 1⟩

/-- Modular inverse mod `N` by exhaustive search (a model of
`mpz_invert`). -/
def invmodZ (d : ℤ) (bigN : ℕ) : Option ℤ :=
  ((List.range bigN).find? fun b => d * b % (bigN : ℤ) = 1).map fun b => (b : ℤ)

/-- Modelled from the spec: affine doubling `2·P` (§4.3 `double(P)`);
`2y ≡ 0` gives the point at infinity, any other non-invertible denominator
is a factoring witness. -/
def ecAffineDouble (a : ℤ) (bigN : ℕ) (p : AffPoint) : Except ℕ AffPoint :=
  if p = ecO then .ok ecO
  else
    let x1 := p.px % (bigN : ℤ)
    let y1 := p.py % (bigN : ℤ)
    if (y1 + y1) % (bigN : ℤ) = 0 then .ok ecO
    else
      match invmodZ ((y1 + y1) % (bigN : ℤ)) bigN with
      | none => .error (Int.gcd ((y1 + y1) % (bigN : ℤ)) bigN)
      | some i =>
        let lam := (3 * x1 ^ 2 + a) * i % (bigN : ℤ)
        let x3 := (lam ^ 2 - x1 - x1) % (bigN : ℤ)
        .ok ⟨x3, (lam * (x1 - x3) - y1) % (bigN : ℤ)⟩

/-- Modelled from the spec: affine addition `P + Q` (§4.3 `add(P, Q)`);
adding inverse points gives the point at infinity, equal points double,
and a non-invertible chord denominator is a factoring witness. -/
def ecAffineAdd (a : ℤ) (bigN : ℕ) (p q : AffPoint) : Except ℕ AffPoint :=
  if p = ecO then .ok q
  else if q = ecO then .ok p
  else
    let x1 := p.px % (bigN : ℤ)
    let y1 := p.py % (bigN : ℤ)
    let x2 := q.px % (bigN : ℤ)
    let y2 := q.py % (bigN : ℤ)
    if x1 = x2 then
      if (y1 + y2) % (bigN : ℤ) = 0 then .ok ecO
      else if y1 = y2 then ecAffineDouble a bigN p
      else .error bigN
    else
      match invmodZ ((x2 - x1) % (bigN : ℤ)) bigN with
      | none => .error (Int.gcd ((x2 - x1) % (bigN : ℤ)) bigN)
      | some i =>
        let lam := (y2 - y1) * i % (bigN : ℤ)
        let x3 := (lam ^ 2 - x1 - x2) % (bigN : ℤ)
        .ok ⟨x3, (lam * (x1 - x3) - y1) % (bigN : ℤ)⟩

/-- Modelled from the spec: binary double-and-add ladder for `k·P`
(§4.3 `multiply(k, P)`), propagating a factoring witness. -/
def ecMulAux (a : ℤ) (bigN : ℕ) : ℕ → ℕ → AffPoint → AffPoint → Except ℕ AffPoint
  | 0, _, acc, _ => .ok acc
  | fuel + 1, k, acc, addend =>
    if k = 0 then .ok acc
    else
      match (if k % 2 = 1 then ecAffineAdd a bigN acc addend else .ok acc) with
      | .error e => .error e
      | .ok acc' =>
        match ecAffineDouble a bigN addend with
        | .error e => .error e
        | .ok addend' => ecMulAux a bigN fuel (k / 2) acc' addend'

/-- Modelled from the spec: `ec_affine_multiply(a, k, N, P, &R)`. -/
def ecAffineMultiply (a : ℤ) (k : ℕ) (bigN : ℕ) (p : AffPoint) :
    Except ℕ AffPoint :=
  ecMulAux a bigN (k + 1) k ecO p

/-! ## `ecpp_check_point` (ecpp.c lines 395–425) -/

/-- Embedding of `ecpp_check_point(x, y, m, q, a, N)`: compute `P2 = ⌊m/q⌋·P`; a
factoring failure is COMPOSITE (0); `P2 = 𝒪` is NOT_PROVED (1); then
`P1 = q·P2`; failure is COMPOSITE, `P1 = 𝒪` is SUCCESS (2), anything else
NOT_PROVED. -/
def ecppCheckPoint (x y m q a bigN : ℕ) : ℕ :=
  let p : AffPoint := ⟨(x : ℤ), (y : ℤ)⟩
  match ecAffineMultiply (a : ℤ) (m / q) bigN p with
  | .error _ => 0
  | .ok p2 =>
    if p2.px = 0 ∧ p2.py = 1 then 1
    else
      match ecAffineMultiply (a : ℤ) q bigN p2 with
      | .error _ => 0
      | .ok p1 => if p1.px = 0 ∧ p1.py = 1 then 2 else 1

/-- Embedding of `_validate_ecpp_curve(a, b, n, px, py, m, q)` from XS.xs lines 241–259:
parse the seven numbers, ignore `b`, and return whether `ecpp_check_point`
reports SUCCESS. -/
def validateEcppCurve (a _b bigN x y m q : ℕ) : Bool :=
  ecppCheckPoint x y m q a bigN = 2

/-! ## Claim C3: classification of `ecpp_check_point` results -/

/-- C3.  `ecpp_check_point` returns SUCCESS (2) exactly when
`P2 = (m/q)·P` is computed without failure, `P2` is not the sentinel
`(0, 1)`, and `P1 = q·P2` is computed without failure and equals the
sentinel; it returns COMPOSITE (0) exactly when one of the two performed
scalar multiplications reports a failure; and NOT_PROVED (1) exactly
otherwise (`P2 = 𝒪`, or `P1` computed but `≠ 𝒪`). -/
theorem ecppCheckPoint_classification (x y m q a bigN : ℕ) :
    (ecppCheckPoint x y m q a bigN = 2 ↔
      ∃ p2, ecAffineMultiply (a : ℤ) (m / q) bigN ⟨(x : ℤ), (y : ℤ)⟩ = .ok p2 ∧
        p2 ≠ ecO ∧ ecAffineMultiply (a : ℤ) q bigN p2 = .ok ecO) ∧
    (ecppCheckPoint x y m q a bigN = 0 ↔
      (∃ e, ecAffineMultiply (a : ℤ) (m / q) bigN ⟨(x : ℤ), (y : ℤ)⟩ = .error e) ∨
      (∃ p2, ecAffineMultiply (a : ℤ) (m / q) bigN ⟨(x : ℤ), (y : ℤ)⟩ = .ok p2 ∧
        p2 ≠ ecO ∧ ∃ e, ecAffineMultiply (a : ℤ) q bigN p2 = .error e)) ∧
    (ecppCheckPoint x y m q a bigN = 1 ↔
      ∃ p2, ecAffineMultiply (a : ℤ) (m / q) bigN ⟨(x : ℤ), (y : ℤ)⟩ = .ok p2 ∧
        (p2 = ecO ∨
          ∃ p1, ecAffineMultiply (a : ℤ) q bigN p2 = .ok p1 ∧ p1 ≠ ecO)) := by
  have hsent : ∀ p : AffPoint, (p.px = 0 ∧ p.py = 1) ↔ p = ecO := by
    intro p
    cases p
    simp [ecO, AffPoint.mk.injEq, and_comm]
  unfold ecppCheckPoint
  dsimp only
  cases hm : ecAffineMultiply (a : ℤ) (m / q) bigN ⟨(x : ℤ), (y : ℤ)⟩ with
  | error e => simp
  | ok p2 =>
    dsimp only
    by_cases h2 : p2 = ecO
    · rw [if_pos ((hsent p2).mpr h2)]
      simp [h2]
    · rw [if_neg (fun hc => h2 ((hsent p2).mp hc))]
      cases hm2 : ecAffineMultiply (a : ℤ) q bigN p2 with
      | error e2 =>
        dsimp only
        simp [hm2, h2]
      | ok p1 =>
        dsimp only
        by_cases h1 : p1 = ecO
        · rw [if_pos ((hsent p1).mpr h1)]
          subst h1
          simp [hm2, h2]
        · rw [if_neg (fun hc => h1 ((hsent p1).mp hc))]
          simp [hm2, h1, h2]

/-! ## Claim C4: what `_validate_ecpp_curve` actually checks -/

/-- C4 counterexample.  On the curve `y² = x³ + 2` over `ℤ/7` the point
`P = (0, 3)` has order 3; with `m = 4` and `q = 3` the function
`_validate_ecpp_curve(0, 2, 7, 0, 3, 4, 3)` returns true even though
`m mod q = 1 ≠ 0`, `m·P = P ≠ 𝒪`, and `q = 3 ≤ (⌊7^{1/4}⌋+1)² = 4` — three
of the four conditions under which the claim says it must return false. -/
theorem validateEcppCurve_cex :
    validateEcppCurve 0 2 7 0 3 4 3 = true ∧ 4 % 3 ≠ 0 ∧
      ecAffineMultiply 0 4 7 ⟨0, 3⟩ = .ok ⟨0, 3⟩ ∧ (⟨0, 3⟩ : AffPoint) ≠ ecO ∧
      3 ≤ (mpzRoot4 7 + 1) * (mpzRoot4 7 + 1) ∧
      (3 : ℤ) ^ 2 % 7 = ((0 : ℤ) ^ 3 + 0 * 0 + 2) % 7 :=
  ⟨by decide, by decide, rfl, by decide, by decide, by decide⟩

/-- C4 amended.  `_validate_ecpp_curve(a, b, N, Px, Py, m, q)` returns true
exactly when `ecpp_check_point(Px, Py, m, q, a, N)` returns SUCCESS (2); the
parameter `b` is ignored, and no `m mod q`, point-on-curve, or
`q > (N^{1/4}+1)²` check is performed by this function itself. -/
theorem validateEcppCurve_spec (a b b' bigN x y m q : ℕ) :
    (validateEcppCurve a b bigN x y m q = true ↔
      ecppCheckPoint x y m q a bigN = 2) ∧
    validateEcppCurve a b bigN x y m q = validateEcppCurve a b' bigN x y m q := by
  unfold validateEcppCurve
  exact ⟨decide_eq_true_iff, rfl⟩

/-! ## Claim C7: the twist parameter g of `select_curve_params` -/

/-- The acceptance test applied to a candidate `g` by the twist-parameter
loop of `select_curve_params` (ecpp.c lines 341–359): `jacobi(g, N) = -1`;
accept immediately when `N ≢ 1 (mod 3)`; otherwise require
`g^((N−1)/3) mod N ≠ 1` and, when `D = −3`, `(g^((N−1)/3))³ ≡ 1 (mod N)`. -/
def gAccept (bigD : ℤ) (bigN g : ℕ) : Bool :=
  if jacobi (g : ℤ) bigN ≠ -1 then false
  else if bigN % 3 ≠ 1 then true
  else
    let t := g ^ ((bigN - 1) / 3) % bigN
    if t = 1 then false
    else if bigD = -3 then decide (t ^ 3 % bigN = 1) else true

/-- The loop `for (g = 2; g < N; g++)` of `select_curve_params`, with the
final `if (g >= N) g = 0` folded in; fuel `N` always suffices. -/
def selectGAux (bigD : ℤ) (bigN : ℕ) : ℕ → ℕ → ℕ
  | 0, _ => 0
  | fuel + 1, g =>
    if bigN ≤ g then 0
    else if gAccept bigD bigN g then g
    else selectGAux bigD bigN fuel (g + 1)

/-- The twist parameter `g` chosen by `select_curve_params` (0 when no
`g < N` is acceptable, reported as COMPOSITE). -/
def selectG (bigD : ℤ) (bigN : ℕ) : ℕ := selectGAux bigD bigN bigN 2

/-- The acceptance condition of the code, spelled out in the amended
claim's wording. -/
def gCond (bigD : ℤ) (bigN g : ℕ) : Prop :=
  jacobi (g : ℤ) bigN = -1 ∧
    (bigN % 3 = 1 →
      g ^ ((bigN - 1) / 3) % bigN ≠ 1 ∧
        (bigD = -3 → (g ^ ((bigN - 1) / 3) % bigN) ^ 3 % bigN = 1))

theorem gAccept_iff (bigD : ℤ) (bigN g : ℕ) :
    gAccept bigD bigN g = true ↔ gCond bigD bigN g := by
  unfold gAccept gCond
  by_cases hj : jacobi (g : ℤ) bigN = -1
  · rw [if_neg (by simp [hj])]
    by_cases h3 : bigN % 3 = 1
    · rw [if_neg (by simp [h3])]
      by_cases ht : g ^ ((bigN - 1) / 3) % bigN = 1
      · simp [ht, hj, h3]
      · by_cases hD : bigD = -3
        · simp [ht, hD, hj, h3]
        · simp [ht, hD, hj, h3]
    · rw [if_pos (by simp [h3])]
      simp [hj, h3]
  · rw [if_pos (by simp [hj])]
    simp [hj]

/-- C7 counterexample.  For `N = 7 ≡ 1 (mod 3)` and `D = −3` the code
selects `g = 3`, whose cubic-character value satisfies
`(g^((N−1)/3))³ ≡ 1 (mod N)` — the code accepts `g` only when that power
IS 1, while the claim demands it be ≠ 1 (for prime `N` it always is 1, so
the claim's condition would reject every `g`); the claim's condition also
fails under its other possible reading `(g^(N−1))³ ≠ 1`. -/
theorem selectG_cex :
    selectG (-3) 7 = 3 ∧ ¬((3 ^ ((7 - 1) / 3) % 7) ^ 3 % 7 ≠ 1) ∧
      ¬((3 ^ (7 - 1) % 7) ^ 3 % 7 ≠ 1) := by decide

theorem selectGAux_spec (bigD : ℤ) (bigN : ℕ) :
    ∀ fuel g0, bigN ≤ g0 + fuel →
      (g0 ≤ selectGAux bigD bigN fuel g0 ∧ selectGAux bigD bigN fuel g0 < bigN ∧
        gAccept bigD bigN (selectGAux bigD bigN fuel g0) = true ∧
        ∀ g, g0 ≤ g → g < selectGAux bigD bigN fuel g0 →
          gAccept bigD bigN g = false) ∨
      (selectGAux bigD bigN fuel g0 = 0 ∧
        ∀ g, g0 ≤ g → g < bigN → gAccept bigD bigN g = false) := by
  intro fuel
  induction fuel with
  | zero =>
    intro g0 hg
    right
    exact ⟨rfl, fun g hg1 hg2 => absurd (by omega : bigN ≤ g0 + 0) (by omega)⟩
  | succ f ih =>
    intro g0 hg
    rw [selectGAux]
    by_cases hN : bigN ≤ g0
    · rw [if_pos hN]
      right
      exact ⟨rfl, fun g hg1 hg2 => by omega⟩
    · rw [if_neg hN]
      by_cases hacc : gAccept bigD bigN g0 = true
      · rw [if_pos hacc]
        left
        exact ⟨le_rfl, by omega, hacc, fun g hg1 hg2 => by omega⟩
      · rw [if_neg hacc]
        rcases ih (g0 + 1) (by omega) with ⟨h1, h2, h3, h4⟩ | ⟨h1, h2⟩
        · left
          refine ⟨by omega, h2, h3, fun g hg1 hg2 => ?_⟩
          rcases Nat.eq_or_lt_of_le hg1 with rfl | hgt
          · exact Bool.eq_false_iff.mpr hacc
          · exact h4 g (by omega) hg2
        · right
          refine ⟨h1, fun g hg1 hg2 => ?_⟩
          rcases Nat.eq_or_lt_of_le hg1 with rfl | hgt
          · exact Bool.eq_false_iff.mpr hacc
          · exact h2 g (by omega) hg2

/-- C7 amended.  The twist parameter is the smallest `g` in `[2, N)` with
`jacobi(g, N) = −1` such that, when `N ≡ 1 (mod 3)`, additionally
`g^((N−1)/3) mod N ≠ 1` and, for `D = −3`, `(g^((N−1)/3))³ ≡ 1 (mod N)`
(the code keeps `g` only when that cube IS 1); when no such `g < N` exists
the routine reports COMPOSITE by setting `g = 0`. -/
theorem selectG_spec (bigD : ℤ) (bigN : ℕ) :
    (2 ≤ selectG bigD bigN ∧ selectG bigD bigN < bigN ∧
      gCond bigD bigN (selectG bigD bigN) ∧
      ∀ g, 2 ≤ g → g < selectG bigD bigN → ¬gCond bigD bigN g) ∨
    (selectG bigD bigN = 0 ∧ ∀ g, 2 ≤ g → g < bigN → ¬gCond bigD bigN g) := by
  have hnotc : ∀ g, gAccept bigD bigN g = false → ¬gCond bigD bigN g := by
    intro g hf hc
    rw [(gAccept_iff bigD bigN g).mpr hc] at hf
    cases hf
  rcases selectGAux_spec bigD bigN bigN 2 (by omega) with ⟨h1, h2, h3, h4⟩ | ⟨h1, h2⟩
  · exact Or.inl ⟨h1, h2, (gAccept_iff bigD bigN _).mp h3,
      fun g hg1 hg2 => hnotc g (h4 g hg1 hg2)⟩
  · exact Or.inr ⟨h1, fun g hg1 hg2 => hnotc g (h2 g hg1 hg2)⟩

/-! ## Claim C5: the fac_stage loop of the public ECPP driver -/

/-- The loop `for (fstage = 1; fstage < 20; fstage++)` of `_GMP_ecpp`
(ecpp.c lines 713–719), over an abstract recursion body `down fstage`
standing for `ecpp_down(0, N, fstage, dlist, sfacs, &nsfacs, prooftextptr)`:
stop at the first result ≠ 1 and return it, else return 1.  (The driver
reaches this loop only when `gcd(N, 223092870) = 1`; otherwise it returns
`_GMP_is_prob_prime(N)` without calling `ecpp_down` at all.) -/
def ecppFstageAux (down : ℕ → ℕ) : ℕ → ℕ → ℕ
  | 0, _ => 1
  | fuel + 1, fstage =>
    if 20 ≤ fstage then 1
    else if down fstage ≠ 1 then down fstage
    else ecppFstageAux down fuel (fstage + 1)

/-- The fac_stage loop of `_GMP_ecpp`, started at `fstage = 1`. -/
def gmpEcppDriver (down : ℕ → ℕ) : ℕ := ecppFstageAux down 20 1

/-- The driver as the claim words it: fac_stage from 1 through 20
inclusive. -/
def specFstageAux (down : ℕ → ℕ) : ℕ → ℕ → ℕ
  | 0, _ => 1
  | fuel + 1, fstage =>
    if 21 ≤ fstage then 1
    else if down fstage ≠ 1 then down fstage
    else specFstageAux down fuel (fstage + 1)

/-- The claimed driver loop over fac_stage 1..20. -/
def specEcppDriver (down : ℕ → ℕ) : ℕ := specFstageAux down 21 1

/-- C5 counterexample.  `_GMP_ecpp`'s loop condition is `fstage < 20`, so
`ecpp_down` is called with fac_stage 1 through 19 only: a recursion body
that first leaves NOT_YET at fac_stage 20 (returning COMPOSITE there) makes
the claimed 1..20 loop return 0 while the code returns 1. -/
theorem gmpEcppDriver_cex :
    gmpEcppDriver (fun s => if s = 20 then 0 else 1) = 1 ∧
      specEcppDriver (fun s => if s = 20 then 0 else 1) = 0 := by decide

theorem ecppFstageAux_spec (down : ℕ → ℕ) :
    ∀ fuel s0, 20 ≤ s0 + fuel →
      (∃ s, s0 ≤ s ∧ s ≤ 19 ∧ down s ≠ 1 ∧
        (∀ t, s0 ≤ t → t < s → down t = 1) ∧
        ecppFstageAux down fuel s0 = down s) ∨
      ((∀ s, s0 ≤ s → s ≤ 19 → down s = 1) ∧
        ecppFstageAux down fuel s0 = 1) := by
  intro fuel
  induction fuel with
  | zero =>
    intro s0 hs
    right
    exact ⟨fun s hs1 hs2 => by omega, rfl⟩
  | succ f ih =>
    intro s0 hs
    rw [ecppFstageAux]
    by_cases h20 : 20 ≤ s0
    · rw [if_pos h20]
      right
      exact ⟨fun s hs1 hs2 => by omega, rfl⟩
    · rw [if_neg h20]
      by_cases hd : down s0 ≠ 1
      · rw [if_pos hd]
        left
        exact ⟨s0, le_rfl, by omega, hd, fun t ht1 ht2 => by omega, rfl⟩
      · rw [if_neg hd]
        rcases ih (s0 + 1) (by omega) with ⟨s, h1, h2, h3, h4, h5⟩ | ⟨h1, h2⟩
        · left
          refine ⟨s, by omega, h2, h3, fun t ht1 ht2 => ?_, h5⟩
          rcases Nat.eq_or_lt_of_le ht1 with rfl | hgt
          · omega
          · exact h4 t (by omega) ht2
        · right
          refine ⟨fun s hs1 hs2 => ?_, h2⟩
          rcases Nat.eq_or_lt_of_le hs1 with rfl | hgt
          · omega
          · exact h1 s (by omega) hs2

/-- C5 amended.  The public ECPP driver calls `ecpp_down` with fac_stage
taking each value from 1 through 19 in order, stops at the first call whose
result is not NOT_YET (1) and returns that result, and returns
PROBABLE_PRIME (1) when every fac_stage returns NOT_YET. -/
theorem gmpEcppDriver_spec (down : ℕ → ℕ) :
    (∃ s, 1 ≤ s ∧ s ≤ 19 ∧ down s ≠ 1 ∧ (∀ t, 1 ≤ t → t < s → down t = 1) ∧
      gmpEcppDriver down = down s) ∨
    ((∀ s, 1 ≤ s → s ≤ 19 → down s = 1) ∧ gmpEcppDriver down = 1) :=
  ecppFstageAux_spec down 20 1 (by omega)

/-! ## Claim C6: the stage range of `ecpp_down`'s factoring loop -/

/-- The lower bound of the factoring-stage loop of `ecpp_down` (ecpp.c line
583): `for (stage = (i == 0) ? facstage : 1; stage <= facstage; stage++)`. -/
def ecppDownStageStart (i facstage : ℕ) : ℕ := if i = 0 then facstage else 1

/-- The list of `stage` values that loop iterates, in order. -/
def ecppDownStages (i facstage : ℕ) : List ℕ :=
  List.range' (ecppDownStageStart i facstage)
    (facstage + 1 - ecppDownStageStart i facstage)

/-- The stage list as the claim words it: 1 up to facstage at every level. -/
def specDownStages (facstage : ℕ) : List ℕ := List.range' 1 facstage

/-- C6 counterexample.  At the outermost recursion level (`i = 0`) with
`facstage = 2`, the loop runs only `stage = 2`, not `stage = 1, 2` as the
claim states for every level. -/
theorem ecppDownStages_cex :
    ecppDownStages 0 2 = [2] ∧ specDownStages 2 = [1, 2] ∧
      ecppDownStages 0 2 ≠ specDownStages 2 := by decide

/-- C6 amended.  At every recursion level `i ≥ 1` the factoring-stage loop
iterates stage from 1 up to the fac_stage parameter; at the outermost level
`i = 0` it runs the single value `stage = fac_stage` (the lower stages were
already covered by earlier outer-driver iterations). -/
theorem ecppDownStages_spec (i facstage : ℕ) :
    (i ≠ 0 → ecppDownStages i facstage = specDownStages facstage) ∧
      ecppDownStages 0 facstage = [facstage] := by
  constructor
  · intro hi
    unfold ecppDownStages ecppDownStageStart specDownStages
    rw [if_neg hi]
    congr 1
  · unfold ecppDownStages ecppDownStageStart
    rw [if_pos rfl]
    have h1 : facstage + 1 - facstage = 1 := by omega
    rw [h1]
    simp [List.range']

theorem ecppDownStages_spec_witness :
    ecppDownStages 1 3 = specDownStages 3 ∧ ecppDownStages 0 3 = [3] :=
  ⟨(ecppDownStages_spec 1 3).1 (by decide), (ecppDownStages_spec 0 3).2⟩
